import Mathlib

/-!
Verification development for vercel-deployment-downloader.

The definitions below are a shallow embedding of `src/index.ts` and
`src/types.ts`.  File-system effects are made explicit by threading an `FS`
state (the set of directories on disk together with an association list from
file paths to file contents); console output is collected as a list of log
events; the network is abstracted exactly as the source abstracts it (the
per-file content fetch is already a parameter `fetcher` in the source, and the
disk write `fs.promises.writeFile` is abstracted as a `Writer` that may fail,
mirroring the fact that the returned promise may reject).  Paths are lists of
path components; `path.resolve(path, entry.name)` on the plain names produced
by the API appends one component.
-/

namespace VercelDl

/-- Entry types of the file-tree interface (types.ts, `FileTree.type`). -/
inductive FType where
  | directory
  | file
  | symlink
  | lambda
  | middleware
  | invalid
deriving DecidableEq, Repr

/-- The `FileTree` interface of types.ts: `name`, `type`, optional `uid`,
optional `children`, optional `contentType`, `mode`, optional `symlink`. -/
inductive FileTree where
  | mk (name : String) (type : FType) (uid : Option String)
       (children : Option (List FileTree)) (contentType : Option String)
       (mode : Nat) (symlink : Option String)

def FileTree.name : FileTree → String
  | .mk n _ _ _ _ _ _ => n

def FileTree.type : FileTree → FType
  | .mk _ t _ _ _ _ _ => t

def FileTree.uid : FileTree → Option String
  | .mk _ _ u _ _ _ _ => u

def FileTree.children : FileTree → Option (List FileTree)
  | .mk _ _ _ c _ _ _ => c

/-- A path on disk, as its list of components. -/
abbrev Path := List String

/-- Console output produced by the materializer: the `Downloading: path/name`
progress line of `downloadFile`, and the `Failed to download name: e` line of
its catch block. -/
inductive LogEvent where
  | progress (path : Path)
  | failure (name : String) (msg : String)
deriving DecidableEq, Repr

/-- Overwrite-or-append update of an association list of files, modelling what
`fs.promises.writeFile` does to the disk: if a file already exists at `p` its
content is replaced in place, otherwise a new file appears. -/
def writeEntry (files : List (Path × String)) (p : Path) (c : String) :
    List (Path × String) :=
  if (files.map Prod.fst).contains p then
    files.map (fun q => if q.1 = p then (p, c) else q)
  else
    files ++ [(p, c)]

/-- Apply a sequence of file writes in order. -/
def writeMany (files : List (Path × String)) (ws : List (Path × String)) :
    List (Path × String) :=
  ws.foldl (fun a w => writeEntry a w.1 w.2) files

/-- Content of the file at `p`, if one exists. -/
def lookupFile (files : List (Path × String)) (p : Path) : Option String :=
  (files.find? (fun q => q.1 = p)).map Prod.snd

/-- The content of the last write at `q` in a write sequence, if any. -/
def lastWrite (ws : List (Path × String)) (q : Path) : Option String :=
  (ws.reverse.find? (fun w => w.1 = q)).map Prod.snd

/-- All nonempty initial segments of a path, shortest first: the ancestors of
the path together with the path itself. -/
def initSegs : Path → List Path
  | [] => []
  | x :: xs => [x] :: (initSegs xs).map (fun s => x :: s)

/-- Disk state: the set of directories that exist, and the files that exist
with their contents. -/
structure FS where
  dirs : List Path
  files : List (Path × String)
deriving DecidableEq, Repr

/-- The paths at which a file exists. -/
def FS.filePaths (fs : FS) : List Path :=
  fs.files.map Prod.fst

/-- Model of `fs.existsSync`: something (directory or file) exists at `p`. -/
def FS.existsAt (fs : FS) (p : Path) : Bool :=
  fs.dirs.contains p || fs.filePaths.contains p

/-- Model of `fs.lstatSync(p).isDirectory()`. -/
def FS.isDirAt (fs : FS) (p : Path) : Bool :=
  fs.dirs.contains p

/-- Model of `fs.mkdirSync(p, recursive)` : every missing initial segment
of `p` (ancestors first, then `p` itself) becomes a directory.  (The code
only calls this when nothing exists at `p`; on a real disk an ancestor that
is a file would make the call throw, a situation the theorems exclude.) -/
def FS.mkdirRecursive (fs : FS) (p : Path) : FS :=
  { fs with dirs := fs.dirs ++ (initSegs p).filter (fun q => ! fs.dirs.contains q) }

/-- Overwrite-or-create a file, leaving directories untouched. -/
def FS.writeFile (fs : FS) (p : Path) (c : String) : FS :=
  { fs with files := writeEntry fs.files p c }

/-- The `fetcher` parameter of the source (built by `fileContentFetcher`):
given a file entry it produces the file body, or fails like the fetcher's
thrown errors. -/
abbrev Fetcher := FileTree → Except String String

/-- Abstraction of `fs.promises.writeFile(downloadPath, body)`: the returned
promise either resolves (giving the new disk state) or rejects. -/
abbrev Writer := Path → String → FS → Except String FS

/-- The writer for a disk on which every write succeeds. -/
def diskWrite : Writer := fun p c fs => Except.ok (fs.writeFile p c)

/-- Embedding of `downloadFile` (index.ts lines 209-231).  The skip check,
the progress log, and the try/catch are translated directly.  Note that the
source does `return fs.promises.writeFile(...)` inside the `try`: the catch
block only covers the fetch (whose rejection is awaited inside the block),
while a rejection of the returned write promise surfaces at the caller's
`await`, hence the `Except.map` on the writer's result instead of a caught
failure.  An error result aborts the surrounding traversal; the log lines
already printed before the abort are not tracked through the error path. -/
def downloadFile (entry : FileTree) (path : Path) (fetcher : Fetcher)
    (writer : Writer) (fs : FS) : Except String (FS × List LogEvent) :=
  let downloadPath := path ++ [entry.name]
  if fs.existsAt downloadPath && fs.isDirAt downloadPath then
    Except.ok (fs, [])
  else
    match fetcher entry with
    | Except.ok data =>
        (writer downloadPath data fs).map
          (fun fs1 => (fs1, [LogEvent.progress downloadPath]))
    | Except.error e =>
        Except.ok (fs, [LogEvent.progress downloadPath,
                        LogEvent.failure entry.name e])

mutual

/-- Embedding of `parseFileTreeEntry` (index.ts lines 233-249): directories
are created if nothing exists at their path and recursed into when they carry
children; file entries are downloaded; all other entry types fall through. -/
def parseFileTreeEntry (entry : FileTree) (path : Path) (fetcher : Fetcher)
    (writer : Writer) (fs : FS) : Except String (FS × List LogEvent) :=
  match entry with
  | FileTree.mk name FType.directory _ children _ _ _ =>
      let dirPath := path ++ [name]
      let fs1 := if ! fs.existsAt dirPath then fs.mkdirRecursive dirPath else fs
      match children with
      | some cs => parseFileTree cs dirPath fetcher writer fs1
      | none => Except.ok (fs1, [])
  | e =>
      if e.type = FType.file then downloadFile e path fetcher writer fs
      else Except.ok (fs, [])

/-- Embedding of `parseFileTree` (index.ts lines 251-259): entries are
processed in order, each awaited; a rejection aborts the loop. -/
def parseFileTree (fileTree : List FileTree) (path : Path) (fetcher : Fetcher)
    (writer : Writer) (fs : FS) : Except String (FS × List LogEvent) :=
  match fileTree with
  | [] => Except.ok (fs, [])
  | entry :: rest =>
      match parseFileTreeEntry entry path fetcher writer fs with
      | Except.error e => Except.error e
      | Except.ok (fs1, l1) =>
          match parseFileTree rest path fetcher writer fs1 with
          | Except.error e => Except.error e
          | Except.ok (fs2, l2) => Except.ok (fs2, l1 ++ l2)

end

/-- Embedding of `countFileTreeLength` (index.ts lines 261-273): an entry
with (present) children of type directory contributes its children's count,
every other entry contributes 1. -/
def countFileTreeLength (fileTree : List FileTree) : Nat :=
  match fileTree with
  | [] => 0
  | entry :: rest =>
      (match entry with
       | FileTree.mk _ FType.directory _ (some cs) _ _ _ => countFileTreeLength cs
       | _ => 1) + countFileTreeLength rest

mutual

/-- The leaf entries (in the sense of the spec: every reachable entry that is
not a directory carrying children) contributed by one entry. -/
def leafEntriesOfEntry : FileTree → List FileTree
  | FileTree.mk _ FType.directory _ (some cs) _ _ _ => leafEntries cs
  | e => [e]

/-- The reachable leaf entries of a tree, in traversal order: a directory
with children contributes only its children's leaves, every other entry
contributes itself. -/
def leafEntries : List FileTree → List FileTree
  | [] => []
  | e :: rest => leafEntriesOfEntry e ++ leafEntries rest

end

mutual

/-- The composed paths of the directory-typed entries contributed by one
entry processed at base `path`: a directory entry contributes its own path
`path ++ name` and, when it carries children, their directory paths under it;
no other entry contributes directory paths. -/
def dirEntryPathsOfEntry : FileTree → Path → List Path
  | FileTree.mk name FType.directory _ children _ _ _, path =>
      (path ++ [name]) :: (match children with
        | some cs => dirEntryPaths cs (path ++ [name])
        | none => [])
  | _, _ => []

/-- The composed paths of all directory-typed entries of a tree rooted at
`path`. -/
def dirEntryPaths : List FileTree → Path → List Path
  | [], _ => []
  | e :: rest, path => dirEntryPathsOfEntry e path ++ dirEntryPaths rest path

end

mutual

/-- The composed target paths of the file-typed entries contributed by one
entry processed at base `path`. -/
def fileEntryPathsOfEntry : FileTree → Path → List Path
  | FileTree.mk name FType.directory _ (some cs) _ _ _, path =>
      fileEntryPaths cs (path ++ [name])
  | FileTree.mk _ FType.directory _ none _ _ _, _ => []
  | e, path => if e.type = FType.file then [path ++ [e.name]] else []

/-- The composed target paths of all file-typed entries of a tree rooted at
`path`. -/
def fileEntryPaths : List FileTree → Path → List Path
  | [], _ => []
  | e :: rest, path => fileEntryPathsOfEntry e path ++ fileEntryPaths rest path

end

mutual

/-- The write (target path, fetched content) contributed by one entry when
no skip applies: file entries whose fetch succeeds. -/
def collectWritesOfEntry (f : Fetcher) : FileTree → Path → List (Path × String)
  | FileTree.mk name FType.directory _ (some cs) _ _ _, path =>
      collectWrites f cs (path ++ [name])
  | FileTree.mk _ FType.directory _ none _ _ _, _ => []
  | e, path =>
      if e.type = FType.file then
        match f e with
        | Except.ok c => [(path ++ [e.name], c)]
        | Except.error _ => []
      else []

/-- The writes performed by a collision-free traversal of a tree rooted at
`path`, in traversal order. -/
def collectWrites (f : Fetcher) : List FileTree → Path → List (Path × String)
  | [], _ => []
  | e :: rest, path => collectWritesOfEntry f e path ++ collectWrites f rest path

end

/-- A disk is ancestor-closed when every ancestor of an existing directory is
itself an existing directory (true of any real file system). -/
def ancClosed (fs : FS) : Prop :=
  ∀ p ∈ fs.dirs, ∀ q ∈ initSegs p, q ∈ fs.dirs

instance (fs : FS) : Decidable (ancClosed fs) :=
  inferInstanceAs (Decidable (∀ p ∈ fs.dirs, ∀ q ∈ initSegs p, q ∈ fs.dirs))

/-- Extensional equality of disk states: the same directories exist and every
path holds the same file content (if any). -/
def FS.StateEq (a b : FS) : Prop :=
  (∀ p : Path, p ∈ a.dirs ↔ p ∈ b.dirs) ∧
  (∀ p : Path, lookupFile a.files p = lookupFile b.files p)

/-! API-side data model (types.ts) and the non-materializer operations of
index.ts. The HTTP layer is abstracted to the parsed response bodies, exactly
as the source's `response.json()` results. -/

/-- The `source` enumeration of the Deployment interface. -/
inductive DSource where
  | cli
  | git
  | importSrc
  | importRepo
  | cloneRepo
deriving DecidableEq, Repr

/-- The `target` enumeration of the Deployment interface. -/
inductive DTarget where
  | production
  | staging
deriving DecidableEq, Repr

/-- The Deployment interface of types.ts.  `meta` is the string-to-string
mapping, modelled as an association list; `target` is optional and nullable;
`inspectorUrl` is nullable. -/
structure Deployment where
  uid : String
  url : String
  name : String
  source : Option DSource
  target : Option (Option DTarget)
  inspectorUrl : Option String
  meta : Option (List (String × String))
  ready : Option Nat
deriving DecidableEq, Repr

/-- The Error interface of types.ts (`code`, `message`). -/
structure ApiErr where
  code : String
  message : String
deriving DecidableEq, Repr

/-- Lookup of a property in a JS object modelled as an association list. -/
def metaLookup (m : List (String × String)) (k : String) : Option String :=
  (m.find? (fun q => q.1 = k)).map Prod.snd

/-- A property value as used in a truthiness test: the empty string is falsy,
so only a present, nonempty value counts. -/
def truthyLookup (m : List (String × String)) (k : String) : Option String :=
  match metaLookup m k with
  | some v => if v = "" then none else some v
  | none => none

/-- Template interpolation of a possibly-missing value: JS renders a missing
property as the string `undefined`. -/
def jsUndef (o : Option String) : String := o.getD "undefined"

/-- Template interpolation of a nullable value: JS renders `null` as the
string `null`. -/
def jsNull (o : Option String) : String := o.getD "null"

/-- What line 164 (`process.exit(0)`) does, or the fall-through when the
deployment is not git-sourced. -/
inductive GuardOutcome where
  | exitZero (logs : List String)
  | proceed
deriving DecidableEq, Repr

/-- Embedding of `checkDeploymentSource` (index.ts lines 151-166): for a
git-sourced deployment it logs a message, then either the constructed GitHub
tree URL (when `meta.githubCommitRepo` is present and truthy) or the
inspector URL, and exits the process with code 0; otherwise it falls
through.  Log strings are the exact results of the source's
`[...].join('\n')` template strings. -/
def checkDeploymentSource (d : Deployment) : GuardOutcome :=
  if d.source = some DSource.git then
    let msg1 := "\nThe files of this deployment cannot be downloaded."
    let githubUrl : Option String :=
      match d.meta with
      | some m =>
          (truthyLookup m "githubCommitRepo").map (fun repo =>
            "https://github.com/" ++ jsUndef (metaLookup m "githubCommitOrg") ++
              "/" ++ repo ++ "/tree/" ++ jsUndef (metaLookup m "githubCommitSha"))
      | none => none
    match githubUrl with
    | some url => GuardOutcome.exitZero [msg1, "View Source on GitHub: " ++ url ++ "\n"]
    | none =>
        GuardOutcome.exitZero
          [msg1, "View Source on Vercel: " ++ jsNull d.inspectorUrl ++ "\n"]
  else GuardOutcome.proceed

/-- The authenticated GET requests init can issue, identified by endpoint. -/
inductive ApiCall where
  | user
  | teams
  | deployments
  | deploymentFiles (uid : String)
  | fileContent (uid : String) (fileUid : Option String)
deriving DecidableEq, Repr

/-- The API calls issued by init lines 323-338, after a deployment has been
selected: if the source guard exits, nothing below line 323 runs and no call
is made; otherwise the file-tree endpoint is called for the deployment and
the traversal's per-file content calls (abstracted as `downstream`) follow. -/
def deploymentApiCalls (d : Deployment) (downstream : List ApiCall) : List ApiCall :=
  match checkDeploymentSource d with
  | GuardOutcome.exitZero _ => []
  | GuardOutcome.proceed => ApiCall.deploymentFiles d.uid :: downstream

/-- The message thrown by `getAccessToken` (index.ts lines 15-23), the exact
result of the source's `[...].join('\n')`. -/
def tokenMissingMsg : String :=
  "🚨\nVercel Access Tokens are required to authenticate and use the Vercel API.\nPlease generate one and set it to the VERCEL_ACCESS_TOKEN environment variable.\nSee: https://vercel.com/guides/how-do-i-use-a-vercel-api-access-token#creating-an-access-token\n"

/-- Embedding of `getAccessToken` (index.ts lines 11-27): `env` is the value
of the `VERCEL_ACCESS_TOKEN` environment variable (`none` when unset).  The
guard `!accessToken` is true exactly when the variable is unset or empty. -/
def getAccessToken (env : Option String) : Except String String :=
  match env with
  | none => Except.error tokenMissingMsg
  | some v => if v = "" then Except.error tokenMissingMsg else Except.ok v

/-- The network calls init (lines 276-304) issues as a function of the token
variable: the token is read first (line 276, before any request), so a
missing or empty token throws before any call; otherwise the user, teams and
deployments endpoints are called in order, followed by the rest of the run
(abstracted as `downstream`). -/
def initApiCalls (env : Option String) (downstream : List ApiCall) : List ApiCall :=
  match getAccessToken env with
  | Except.error _ => []
  | Except.ok _ => ApiCall.user :: ApiCall.teams :: ApiCall.deployments :: downstream

/-- The parsed body of the deployments-list response (index.ts line 99): a
deployments array and an optional error field. -/
structure DeploymentsResponse where
  deployments : List Deployment
  error : Option ApiErr
deriving DecidableEq, Repr

/-- First and last part of the error message built at index.ts lines 103-111
(the source's `[...].join('\n')` around the upstream message). -/
def deploymentsErrHeader : String :=
  "\nError has occurred when attempting to download list of deployments.\n"

/-- Trailing part of the `getDeployments` error message. -/
def deploymentsErrFooter : String :=
  "\nSee https://vercel.com/docs/rest-api#errors/generic-errors\n"

/-- Embedding of `getDeployments` (index.ts lines 87-115) over the parsed
response body: a response with an error field throws with the upstream
message embedded; otherwise the deployments array is returned. -/
def getDeployments (resp : DeploymentsResponse) : Except String (List Deployment) :=
  match resp.error with
  | some e => Except.error (deploymentsErrHeader ++ e.message ++ deploymentsErrFooter)
  | none => Except.ok resp.deployments

/-- Embedding of the launcher `init().catch((e) => console.error(e))`
(index.ts lines 341-343): the result is the process exit status together
with the lines printed to standard error.  A rejection of init is handled by
the `.catch`, which prints the error; since the rejection is handled and no
`process.exit` runs, the process then terminates normally, i.e. with status
0, under Node semantics. -/
def topLevel (r : Except String Unit) : Nat × List String :=
  match r with
  | Except.ok _ => (0, [])
  | Except.error e => (0, [e])

/-! Concrete fixtures used by witnesses and counterexamples. -/

/-- A file entry fixture with the given name and uid. -/
def mkFileEntry (name uid : String) : FileTree :=
  FileTree.mk name FType.file (some uid) none (some "text/plain") 420 none

/-- A directory entry fixture with the given name and children field. -/
def mkDirEntry (name : String) (children : Option (List FileTree)) : FileTree :=
  FileTree.mk name FType.directory none children none 493 none

/-- A symlink entry fixture. -/
def symlinkEntry : FileTree :=
  FileTree.mk "link" FType.symlink none none none 420 (some "target")

/-- A fresh disk holding only the output directory. -/
def fsOut : FS :=
  FS.mk [["out"]] []

/-- A fetcher that fails on every entry. -/
def noFetch : Fetcher := fun _ => Except.error "no fetch"

/-- A fetcher serving fixed contents for the uids u1, u2, u3. -/
def fetchU : Fetcher := fun e =>
  match e.uid with
  | some "u1" => Except.ok "one"
  | some "u2" => Except.ok "two"
  | some "u3" => Except.ok "three"
  | _ => Except.error "unknown uid"

/-- A fetcher like `fetchU` except that fetching u2 fails. -/
def fetchU2Fails : Fetcher := fun e =>
  match e.uid with
  | some "u1" => Except.ok "one"
  | some "u2" => Except.error "boom"
  | some "u3" => Except.ok "three"
  | _ => Except.error "unknown uid"

/-- A writer for a disk that rejects the write at out/f2 (e.g. out of space
there) and succeeds elsewhere. -/
def writeF2Fails : Writer := fun p c fs =>
  if p = ["out", "f2"] then Except.error "disk full" else Except.ok (fs.writeFile p c)

/-- A three-file tree. -/
def threeFiles : List FileTree :=
  [mkFileEntry "f1" "u1", mkFileEntry "f2" "u2", mkFileEntry "f3" "u3"]

/-- A tree in which a file entry and a directory entry compose to the same
path. -/
def collidingTree : List FileTree :=
  [mkFileEntry "a" "u1", mkDirEntry "a" none]

/-- A small nested tree: a directory with one file child, and a sibling
file. -/
def nestedTree : List FileTree :=
  [mkDirEntry "a" (some [mkFileEntry "b.txt" "u1"]), mkFileEntry "c" "u2"]

/-- A single-directory tree whose one file child has a failing fetch. -/
def witnessTree : List FileTree :=
  [mkDirEntry "d" (some [mkFileEntry "x" "u2"])]

/-- The disk state produced by materializing `nestedTree` from `fsOut` with
`fetchU`. -/
def run1FS : FS :=
  FS.mk [["out"], ["out", "a"]]
    [(["out", "a", "b.txt"], "one"), (["out", "c"], "two")]

/-- The log lines produced by materializing `nestedTree` from `fsOut` with
`fetchU`. -/
def run1Logs : List LogEvent :=
  [LogEvent.progress ["out", "a", "b.txt"], LogEvent.progress ["out", "c"]]

/-- A git-sourced deployment fixture carrying GitHub commit metadata. -/
def gitDeployment : Deployment :=
  Deployment.mk "dpl_1" "my-app.vercel.app" "my-app" (some DSource.git)
    (some (some DTarget.production)) (some "https://vercel.com/inspect/dpl_1")
    (some [("githubCommitRepo", "repo"), ("githubCommitOrg", "org"),
           ("githubCommitSha", "abc123")])
    (some 1700000000000)

/-- A git-sourced deployment fixture without metadata. -/
def gitDeploymentNoMeta : Deployment :=
  Deployment.mk "dpl_2" "my-app.vercel.app" "my-app" (some DSource.git)
    (some (some DTarget.production)) (some "https://vercel.com/inspect/dpl_2")
    none none

/-- A deployments-list response fixture carrying an error body. -/
def errorResponse : DeploymentsResponse :=
  DeploymentsResponse.mk [] (some (ApiErr.mk "X" "Y"))

/-- A deployments-list response fixture without an error body. -/
def okResponse : DeploymentsResponse :=
  DeploymentsResponse.mk [gitDeployment] none

/-! Helper lemmas. -/

theorem pcontains_iff (l : List Path) (a : Path) : l.contains a = true ↔ a ∈ l :=
  List.elem_iff

theorem pcontains_cons (x : Path) (xs : List Path) (a : Path) :
    (x :: xs).contains a = (a == x || xs.contains a) := rfl

theorem parseFileTree_nil (path : Path) (f : Fetcher) (w : Writer) (fs : FS) :
    parseFileTree [] path f w fs = Except.ok (fs, []) := rfl

theorem parseFileTree_cons (e : FileTree) (rest : List FileTree) (path : Path)
    (f : Fetcher) (w : Writer) (fs : FS) :
    parseFileTree (e :: rest) path f w fs =
      match parseFileTreeEntry e path f w fs with
      | Except.error e1 => Except.error e1
      | Except.ok (fs1, l1) =>
          match parseFileTree rest path f w fs1 with
          | Except.error e2 => Except.error e2
          | Except.ok (fs2, l2) => Except.ok (fs2, l1 ++ l2) := rfl

theorem parseFileTreeEntry_dir (name : String) (uid : Option String)
    (ch : Option (List FileTree)) (ct : Option String) (mo : Nat)
    (sy : Option String) (path : Path) (f : Fetcher) (w : Writer) (fs : FS) :
    parseFileTreeEntry (FileTree.mk name FType.directory uid ch ct mo sy) path f w fs =
      (match ch with
       | some cs =>
           parseFileTree cs (path ++ [name]) f w
             (if ! fs.existsAt (path ++ [name]) then fs.mkdirRecursive (path ++ [name]) else fs)
       | none =>
           Except.ok
             ((if ! fs.existsAt (path ++ [name]) then fs.mkdirRecursive (path ++ [name]) else fs),
              [])) := by
  cases ch <;> rfl

theorem parseFileTreeEntry_ndir (name : String) (ty : FType) (uid : Option String)
    (ch : Option (List FileTree)) (ct : Option String) (mo : Nat)
    (sy : Option String) (path : Path) (f : Fetcher) (w : Writer) (fs : FS)
    (h : ty ≠ FType.directory) :
    parseFileTreeEntry (FileTree.mk name ty uid ch ct mo sy) path f w fs =
      (if ty = FType.file then
         downloadFile (FileTree.mk name ty uid ch ct mo sy) path f w fs
       else Except.ok (fs, [])) := by
  cases ty <;> first
    | exact absurd rfl h
    | rfl

theorem lookupFile_map_upd (files : List (Path × String)) (p : Path) (c : String)
    (q : Path) :
    lookupFile (files.map (fun r => if r.1 = p then (p, c) else r)) q =
      (if q = p then (if (files.map Prod.fst).contains p then some c else none)
       else lookupFile files q) := by
  induction files with
  | nil => by_cases hq : q = p <;> simp [lookupFile, hq]
  | cons r rest ih =>
      by_cases hr : r.1 = p
      · by_cases hq : q = p
        · subst hq
          rw [List.map_cons, if_pos hr]
          unfold lookupFile
          rw [List.find?_cons_of_pos _ (by simp)]
          rw [List.map_cons, pcontains_cons]
          have hb : (q == r.1) = true := beq_iff_eq.2 hr.symm
          rw [hb, Bool.true_or, if_pos rfl]
          simp
        · have hpq : ¬ p = q := fun h => hq h.symm
          rw [List.map_cons, if_pos hr]
          unfold lookupFile
          rw [List.find?_cons_of_neg _ (by simp [hpq])]
          rw [List.find?_cons_of_neg _ (by simp [hr, hpq])]
          unfold lookupFile at ih
          rw [ih, if_neg hq, if_neg hq]
      · by_cases hq2 : r.1 = q
        · have hqp : ¬ q = p := fun h => hr (hq2.symm ▸ h ▸ rfl)
          rw [List.map_cons, if_neg hr]
          unfold lookupFile
          rw [List.find?_cons_of_pos _ (by simp [hq2])]
          rw [List.find?_cons_of_pos _ (by simp [hq2])]
          rw [if_neg hqp]
        · rw [List.map_cons, if_neg hr]
          unfold lookupFile
          rw [List.find?_cons_of_neg _ (by simp [hq2])]
          rw [List.find?_cons_of_neg _ (by simp [hq2])]
          unfold lookupFile at ih
          rw [ih]
          by_cases hq : q = p
          · subst hq
            rw [if_pos rfl, if_pos rfl]
            have hb : (q == r.1) = false :=
              beq_eq_false_iff_ne.2 (fun h => hr h.symm)
            rw [List.map_cons, pcontains_cons, hb, Bool.false_or]
          · rw [if_neg hq, if_neg hq]

theorem lookupFile_append_one (files : List (Path × String)) (p : Path) (c : String)
    (q : Path) (h : (files.map Prod.fst).contains p = false) :
    lookupFile (files ++ [(p, c)]) q = (if q = p then some c else lookupFile files q) := by
  unfold lookupFile
  rw [List.find?_append]
  cases hf : files.find? (fun r => decide (r.1 = q)) with
  | some r =>
      have hrq : r.1 = q := by simpa using List.find?_some hf
      have hmem : r ∈ files := List.mem_of_find?_eq_some hf
      by_cases hq : q = p
      · exfalso
        subst hq
        have hc : (files.map Prod.fst).contains q = true :=
          (pcontains_iff _ _).2 (List.mem_map.2 ⟨r, hmem, hrq⟩)
        rw [h] at hc
        exact Bool.false_ne_true hc
      · simp [Option.orElse, hq]
  | none =>
      by_cases hq : q = p
      · subst hq
        simp [Option.orElse, List.find?]
      · have hd : decide (((p, c) : Path × String).1 = q) = false :=
          decide_eq_false (fun hh => hq hh.symm)
        simp [Option.orElse, List.find?, hd, hq]

theorem lookupFile_writeEntry (files : List (Path × String)) (p : Path) (c : String)
    (q : Path) :
    lookupFile (writeEntry files p c) q = (if q = p then some c else lookupFile files q) := by
  by_cases hc : (files.map Prod.fst).contains p = true
  · unfold writeEntry
    rw [if_pos hc]
    rw [lookupFile_map_upd, hc]
    by_cases hq : q = p <;> simp [hq]
  · have hc2 : (files.map Prod.fst).contains p = false := by
      cases h2 : (files.map Prod.fst).contains p
      · rfl
      · exact absurd h2 hc
    unfold writeEntry
    rw [if_neg hc]
    exact lookupFile_append_one files p c q hc2

theorem parseFileTree_cons_ok (e : FileTree) (rest : List FileTree) (path : Path)
    (f : Fetcher) (w : Writer) (fs fs1 : FS) (l1 : List LogEvent)
    (h : parseFileTreeEntry e path f w fs = Except.ok (fs1, l1)) :
    parseFileTree (e :: rest) path f w fs =
      match parseFileTree rest path f w fs1 with
      | Except.error e2 => Except.error e2
      | Except.ok (fs2, l2) => Except.ok (fs2, l1 ++ l2) := by
  rw [parseFileTree_cons, h]

theorem parseFileTree_cons_error (e : FileTree) (rest : List FileTree) (path : Path)
    (f : Fetcher) (w : Writer) (fs : FS) (msg : String)
    (h : parseFileTreeEntry e path f w fs = Except.error msg) :
    parseFileTree (e :: rest) path f w fs = Except.error msg := by
  rw [parseFileTree_cons, h]

/-! Claim theorems. -/

/-- C10: entries whose type is symlink, lambda, middleware, or invalid are
no-ops: processing such an entry leaves the disk unchanged, performs no
fetch or write, logs nothing and raises no error, and the traversal of the
remaining entries proceeds exactly as if the entry were absent. -/
theorem other_entry_types_are_noops (name : String) (ty : FType)
    (uid : Option String) (ch : Option (List FileTree)) (ct : Option String)
    (mo : Nat) (sy : Option String) (rest : List FileTree) (path : Path)
    (f : Fetcher) (w : Writer) (fs : FS)
    (h : ty = FType.symlink ∨ ty = FType.lambda ∨ ty = FType.middleware ∨
         ty = FType.invalid) :
    parseFileTreeEntry (FileTree.mk name ty uid ch ct mo sy) path f w fs =
      Except.ok (fs, []) ∧
    parseFileTree (FileTree.mk name ty uid ch ct mo sy :: rest) path f w fs =
      parseFileTree rest path f w fs := by
  have h1 : parseFileTreeEntry (FileTree.mk name ty uid ch ct mo sy) path f w fs =
      Except.ok (fs, []) := by
    rcases h with h | h | h | h <;> subst h <;> rfl
  refine ⟨h1, ?_⟩
  rw [parseFileTree_cons_ok _ _ _ _ _ _ _ _ h1]
  cases hrest : parseFileTree rest path f w fs with
  | error e => rfl
  | ok pr => cases pr with | mk a b => simp

/-- Witness for C10 at a concrete symlink entry on a fresh disk. -/
theorem other_entry_types_are_noops_witness :
    (FType.symlink = FType.symlink ∨ FType.symlink = FType.lambda ∨
     FType.symlink = FType.middleware ∨ FType.symlink = FType.invalid) ∧
    (parseFileTreeEntry symlinkEntry ["out"] noFetch diskWrite fsOut =
       Except.ok (fsOut, []) ∧
     parseFileTree [symlinkEntry] ["out"] noFetch diskWrite fsOut =
       parseFileTree [] ["out"] noFetch diskWrite fsOut) :=
  ⟨Or.inl rfl,
   other_entry_types_are_noops "link" FType.symlink none none none 420
     (some "target") [] ["out"] noFetch diskWrite fsOut (Or.inl rfl)⟩

/-- C3: a file entry processed at `path` whose target `path ++ name` is an
existing directory is skipped silently (no fetch, no write, no progress
line, no error, for every fetcher and writer); otherwise the fetched content
is written to the target (on a disk whose writes succeed), emitting exactly
the progress line, and the write overwrites whatever file was there. -/
theorem downloadFile_skip_and_write (e : FileTree) (path : Path) (fs : FS) :
    (fs.isDirAt (path ++ [e.name]) = true →
      ∀ (f : Fetcher) (w : Writer), downloadFile e path f w fs = Except.ok (fs, [])) ∧
    (∀ (f : Fetcher) (c : String), fs.isDirAt (path ++ [e.name]) = false →
      f e = Except.ok c →
      downloadFile e path f diskWrite fs =
        Except.ok (fs.writeFile (path ++ [e.name]) c,
          [LogEvent.progress (path ++ [e.name])])) ∧
    (∀ c : String,
      lookupFile ((fs.writeFile (path ++ [e.name]) c).files) (path ++ [e.name]) =
        some c) := by
  refine ⟨?_, ?_, ?_⟩
  · intro h f w
    have hex : fs.existsAt (path ++ [e.name]) = true := by
      unfold FS.existsAt
      unfold FS.isDirAt at h
      rw [h]
      rfl
    simp [downloadFile, hex, h]
  · intro f c hdir hf
    simp [downloadFile, hdir, hf, diskWrite, Except.map]
  · intro c
    unfold FS.writeFile
    rw [lookupFile_writeEntry]
    simp

/-- Witness for C3: the skip branch at a pre-existing directory, and the
write branch on a fresh disk, at concrete inputs. -/
theorem downloadFile_skip_and_write_witness :
    ((FS.mk [["out"], ["out", "f1"]] []).isDirAt (["out"] ++ [(mkFileEntry "f1" "u1").name]) = true ∧
     downloadFile (mkFileEntry "f1" "u1") ["out"] fetchU diskWrite
       (FS.mk [["out"], ["out", "f1"]] []) =
       Except.ok (FS.mk [["out"], ["out", "f1"]] [], [])) ∧
    (fsOut.isDirAt (["out"] ++ [(mkFileEntry "f1" "u1").name]) = false ∧
     fetchU (mkFileEntry "f1" "u1") = Except.ok "one" ∧
     downloadFile (mkFileEntry "f1" "u1") ["out"] fetchU diskWrite fsOut =
       Except.ok (fsOut.writeFile (["out"] ++ [(mkFileEntry "f1" "u1").name]) "one",
         [LogEvent.progress (["out"] ++ [(mkFileEntry "f1" "u1").name])])) :=
  ⟨⟨rfl,
    (downloadFile_skip_and_write (mkFileEntry "f1" "u1") ["out"]
      (FS.mk [["out"], ["out", "f1"]] [])).1 rfl fetchU diskWrite⟩,
   ⟨rfl, rfl,
    ((downloadFile_skip_and_write (mkFileEntry "f1" "u1") ["out"] fsOut).2).1
      fetchU "one" rfl rfl⟩⟩

theorem fileTree_sizeOf_pos (e : FileTree) : 0 < sizeOf e := by
  cases e with
  | mk n t u c ct mo sy => simp only [FileTree.mk.sizeOf_spec]; omega

theorem count_eq_leaves_aux (n : Nat) :
    ∀ t : List FileTree, sizeOf t ≤ n →
      countFileTreeLength t = (leafEntries t).length := by
  induction n with
  | zero =>
      intro t h
      cases t with
      | nil => simp [countFileTreeLength, leafEntries]
      | cons e rest =>
          exfalso
          have he := fileTree_sizeOf_pos e
          simp only [List.cons.sizeOf_spec] at h
          omega
  | succ n ih =>
      intro t h
      cases t with
      | nil => simp [countFileTreeLength, leafEntries]
      | cons e rest =>
          have hsz : sizeOf e + sizeOf rest ≤ n := by
            simp only [List.cons.sizeOf_spec] at h
            omega
          have hrest : sizeOf rest ≤ n := by
            have := fileTree_sizeOf_pos e
            omega
          cases e with
          | mk nm ty u ch ct mo sy =>
              cases ty with
              | directory =>
                  cases ch with
                  | some cs =>
                      have hcs : sizeOf cs ≤ n := by
                        simp only [FileTree.mk.sizeOf_spec, Option.some.sizeOf_spec] at hsz
                        omega
                      simp only [countFileTreeLength, leafEntries, leafEntriesOfEntry,
                        List.length_append]
                      rw [ih cs hcs, ih rest hrest]
                  | none =>
                      simp only [countFileTreeLength, leafEntries, leafEntriesOfEntry,
                        List.length_append, List.length_cons, List.length_nil]
                      rw [ih rest hrest]
              | file =>
                  simp only [countFileTreeLength, leafEntries, leafEntriesOfEntry,
                    List.length_append, List.length_cons, List.length_nil]
                  rw [ih rest hrest]
              | symlink =>
                  simp only [countFileTreeLength, leafEntries, leafEntriesOfEntry,
                    List.length_append, List.length_cons, List.length_nil]
                  rw [ih rest hrest]
              | lambda =>
                  simp only [countFileTreeLength, leafEntries, leafEntriesOfEntry,
                    List.length_append, List.length_cons, List.length_nil]
                  rw [ih rest hrest]
              | middleware =>
                  simp only [countFileTreeLength, leafEntries, leafEntriesOfEntry,
                    List.length_append, List.length_cons, List.length_nil]
                  rw [ih rest hrest]
              | invalid =>
                  simp only [countFileTreeLength, leafEntries, leafEntriesOfEntry,
                    List.length_append, List.length_cons, List.length_nil]
                  rw [ih rest hrest]

/-- C4: for every file tree, countFileTreeLength equals the number of
reachable leaf entries, where a directory carrying children contributes 0
itself (only its children are counted) and every other entry contributes
exactly 1. -/
theorem countFileTreeLength_counts_leaves (t : List FileTree) :
    countFileTreeLength t = (leafEntries t).length :=
  count_eq_leaves_aux (sizeOf t) t le_rfl

/-- C7: a deployments-list response whose body carries an error field makes
getDeployments fail with a message containing the upstream message verbatim
and return no (partial) deployment list; a response without an error field
yields the deployments array. -/
theorem getDeployments_error_policy (resp : DeploymentsResponse) :
    (∀ err : ApiErr, resp.error = some err →
      (∃ pre post : String,
         getDeployments resp = Except.error (pre ++ err.message ++ post)) ∧
      ∀ l : List Deployment, getDeployments resp ≠ Except.ok l) ∧
    (resp.error = none → getDeployments resp = Except.ok resp.deployments) := by
  constructor
  · intro err herr
    constructor
    · exact ⟨deploymentsErrHeader, deploymentsErrFooter, by simp [getDeployments, herr]⟩
    · intro l hok
      simp [getDeployments, herr] at hok
  · intro hn
    simp [getDeployments, hn]

/-- Witness for C7 at a concrete error response (message Y) and a concrete
error-free response. -/
theorem getDeployments_error_policy_witness :
    (errorResponse.error = some (ApiErr.mk "X" "Y") ∧
     (∃ pre post : String,
        getDeployments errorResponse = Except.error (pre ++ "Y" ++ post)) ∧
     (∀ l : List Deployment, getDeployments errorResponse ≠ Except.ok l)) ∧
    (okResponse.error = none ∧
     getDeployments okResponse = Except.ok okResponse.deployments) := by
  refine ⟨⟨rfl, ?_, ?_⟩, rfl, (getDeployments_error_policy okResponse).2 rfl⟩
  · exact ((getDeployments_error_policy errorResponse).1 (ApiErr.mk "X" "Y") rfl).1
  · exact ((getDeployments_error_policy errorResponse).1 (ApiErr.mk "X" "Y") rfl).2

/-- C8: getAccessToken returns the variable's value exactly when it is set
and nonempty, fails with the missing-credential message exactly when the
variable is unset or empty, and in the failing case init issues no network
call; the embedding is a pure function of the environment, so reading the
environment is its only effect. -/
theorem getAccessToken_spec (env : Option String) :
    (∀ v : String, env = some v → v ≠ "" → getAccessToken env = Except.ok v) ∧
    ((env = none ∨ env = some "") → getAccessToken env = Except.error tokenMissingMsg) ∧
    (∀ v : String, getAccessToken env = Except.ok v → env = some v ∧ v ≠ "") ∧
    ((env = none ∨ env = some "") →
      ∀ rest : List ApiCall, initApiCalls env rest = []) := by
  refine ⟨?_, ?_, ?_, ?_⟩
  · intro v hv hne
    subst hv
    simp [getAccessToken, hne]
  · rintro (h | h) <;> subst h <;> simp [getAccessToken]
  · intro v hok
    cases env with
    | none => simp [getAccessToken] at hok
    | some u =>
        by_cases hu : u = ""
        · subst hu
          simp [getAccessToken] at hok
        · simp [getAccessToken, hu] at hok
          subst hok
          exact ⟨rfl, hu⟩
  · rintro (h | h) <;> subst h <;> intro rest <;>
      simp [initApiCalls, getAccessToken]

/-- Witness for C8: a concrete nonempty token is returned, and a missing
token fails with the message and issues no network call. -/
theorem getAccessToken_spec_witness :
    ((some "tok" : Option String) = some "tok" ∧ "tok" ≠ "" ∧
     getAccessToken (some "tok") = Except.ok "tok") ∧
    (((none : Option String) = none ∨ (none : Option String) = some "") ∧
     getAccessToken none = Except.error tokenMissingMsg ∧
     initApiCalls none [] = []) := by
  refine ⟨⟨rfl, ?_, ?_⟩, Or.inl rfl, ?_, ?_⟩
  · decide
  · exact (getAccessToken_spec (some "tok")).1 "tok" rfl (by decide)
  · exact (getAccessToken_spec none).2.1 (Or.inl rfl)
  · exact (getAccessToken_spec none).2.2.2 (Or.inl rfl) []

/-- C6: for a git-sourced deployment, the guard prints the cannot-download
message followed by the constructed GitHub tree URL (when
meta.githubCommitRepo is present and truthy) or the inspector URL otherwise,
exits the process with code 0, and the deployment phase issues no file-tree
or file-content API call. -/
theorem checkDeploymentSource_git_guard (d : Deployment) (downstream : List ApiCall)
    (hsrc : d.source = some DSource.git) :
    deploymentApiCalls d downstream = [] ∧
    (∀ (m : List (String × String)) (repo org sha : String),
      d.meta = some m →
      metaLookup m "githubCommitRepo" = some repo → repo ≠ "" →
      metaLookup m "githubCommitOrg" = some org →
      metaLookup m "githubCommitSha" = some sha →
      checkDeploymentSource d = GuardOutcome.exitZero
        ["\nThe files of this deployment cannot be downloaded.",
         "View Source on GitHub: " ++
           ("https://github.com/" ++ org ++ "/" ++ repo ++ "/tree/" ++ sha) ++ "\n"]) ∧
    ((d.meta = none ∨
      ∃ m, d.meta = some m ∧ metaLookup m "githubCommitRepo" = none) →
      checkDeploymentSource d = GuardOutcome.exitZero
        ["\nThe files of this deployment cannot be downloaded.",
         "View Source on Vercel: " ++ jsNull d.inspectorUrl ++ "\n"]) := by
  refine ⟨?_, ?_, ?_⟩
  · unfold deploymentApiCalls
    cases hg : checkDeploymentSource d with
    | exitZero logs => rfl
    | proceed =>
        exfalso
        simp only [checkDeploymentSource, hsrc, if_pos] at hg
        split at hg <;> simp at hg
  · intro m repo org sha hm hrepo hne horg hsha
    simp [checkDeploymentSource, hsrc, hm, truthyLookup, hrepo, horg, hsha, hne, jsUndef]
  · rintro (hm | ⟨m, hm, hr⟩)
    · simp [checkDeploymentSource, hsrc, hm, truthyLookup]
    · simp [checkDeploymentSource, hsrc, hm, truthyLookup, hr]

/-- Witness for C6 at the concrete git-sourced fixtures, with and without
metadata. -/
theorem checkDeploymentSource_git_guard_witness :
    (gitDeployment.source = some DSource.git ∧
     deploymentApiCalls gitDeployment [] = [] ∧
     checkDeploymentSource gitDeployment = GuardOutcome.exitZero
       ["\nThe files of this deployment cannot be downloaded.",
        "View Source on GitHub: " ++
          ("https://github.com/" ++ "org" ++ "/" ++ "repo" ++ "/tree/" ++ "abc123") ++
          "\n"]) ∧
    (gitDeploymentNoMeta.meta = none ∧
     checkDeploymentSource gitDeploymentNoMeta = GuardOutcome.exitZero
       ["\nThe files of this deployment cannot be downloaded.",
        "View Source on Vercel: " ++ jsNull gitDeploymentNoMeta.inspectorUrl ++ "\n"]) := by
  refine ⟨⟨rfl, ?_, ?_⟩, rfl, ?_⟩
  · exact (checkDeploymentSource_git_guard gitDeployment [] rfl).1
  · exact (checkDeploymentSource_git_guard gitDeployment [] rfl).2.1
      [("githubCommitRepo", "repo"), ("githubCommitOrg", "org"),
       ("githubCommitSha", "abc123")]
      "repo" "org" "abc123" rfl (by decide) (by decide) (by decide) (by decide)
  · exact (checkDeploymentSource_git_guard gitDeploymentNoMeta [] rfl).2.2 (Or.inl rfl)

/-- C9 counterexample: at the concrete top-level error "boom" the diagnostic
is printed to standard error, but the process exit status is 0 — not the
non-zero status the claim asserts — because `init().catch` handles the
rejection and nothing sets a non-zero exit code. -/
theorem topLevel_zero_exit_counterexample :
    topLevel (Except.error "boom") = (0, ["boom"]) ∧
    ¬ (topLevel (Except.error "boom")).1 ≠ 0 :=
  ⟨rfl, fun h => h rfl⟩

/-- C9 amended: every error reaching the top level is printed to standard
error by the catch handler, but the handled rejection makes the process
terminate with exit status 0, the same status as normal completion (and as
the git-source guard's explicit exit 0); no path yields a non-zero status. -/
theorem topLevel_exit_status (r : Except String Unit) :
    (topLevel r).1 = 0 ∧
    (∀ e : String, r = Except.error e → (topLevel r).2 = [e]) ∧
    (r = Except.ok () → (topLevel r).2 = []) := by
  cases r with
  | ok u =>
      cases u
      exact ⟨rfl, fun e h => Except.noConfusion h, fun _ => rfl⟩
  | error e =>
      refine ⟨rfl, fun e2 h => ?_, fun h => Except.noConfusion h⟩
      cases h
      rfl

/-- Witness for C9's amended statement at the concrete error "boom". -/
theorem topLevel_exit_status_witness :
    (topLevel (Except.error "boom")).1 = 0 ∧
    (topLevel (Except.error "boom")).2 = ["boom"] :=
  ⟨(topLevel_exit_status (Except.error "boom")).1,
   (topLevel_exit_status (Except.error "boom")).2.1 "boom" rfl⟩

/-! Lemmas about paths, directories and write sequences, used to
characterize the materializer. -/

theorem initSegs_append_one (p : Path) (a : String) :
    initSegs (p ++ [a]) = initSegs p ++ [p ++ [a]] := by
  induction p with
  | nil => rfl
  | cons x xs ih => simp [initSegs, ih]

theorem initSegs_trans (p : Path) :
    ∀ q r : Path, q ∈ initSegs p → r ∈ initSegs q → r ∈ initSegs p := by
  induction p with
  | nil => intro q r hq; simp [initSegs] at hq
  | cons x xs ih =>
      intro q r hq hr
      simp only [initSegs, List.mem_cons, List.mem_map] at hq
      rcases hq with rfl | ⟨s, hs, rfl⟩
      · simp only [initSegs, List.mem_cons, List.mem_map] at hr
        rcases hr with rfl | ⟨t, ht, h⟩
        · simp [initSegs]
        · simp [initSegs] at ht
      · simp only [initSegs, List.mem_cons, List.mem_map] at hr
        rcases hr with rfl | ⟨t, ht, rfl⟩
        · simp [initSegs]
        · simp only [initSegs, List.mem_cons, List.mem_map]
          exact Or.inr ⟨t, ih s t hs ht, rfl⟩

theorem mem_dirs_mkdirRecursive (fs : FS) (p q : Path) :
    q ∈ (fs.mkdirRecursive p).dirs ↔ (q ∈ fs.dirs ∨ q ∈ initSegs p) := by
  unfold FS.mkdirRecursive
  simp only [List.mem_append, List.mem_filter]
  constructor
  · rintro (h | ⟨h, _⟩)
    · exact Or.inl h
    · exact Or.inr h
  · rintro (h | h)
    · exact Or.inl h
    · by_cases hd : q ∈ fs.dirs
      · exact Or.inl hd
      · refine Or.inr ⟨h, ?_⟩
        simp only [Bool.not_eq_true']
        cases hc : fs.dirs.contains q
        · rfl
        · exact absurd ((pcontains_iff _ _).1 hc) hd

theorem ancClosed_mkdirRecursive (fs : FS) (p : Path) (h : ancClosed fs) :
    ancClosed (fs.mkdirRecursive p) := by
  intro q hq r hr
  rw [mem_dirs_mkdirRecursive] at hq ⊢
  rcases hq with hq | hq
  · exact Or.inl (h q hq r hr)
  · exact Or.inr (initSegs_trans p q r hq hr)

theorem ancClosed_writeFile (fs : FS) (p : Path) (c : String) (h : ancClosed fs) :
    ancClosed (fs.writeFile p c) := h

theorem writeEntry_keys (files : List (Path × String)) (p : Path) (c : String) :
    (writeEntry files p c).map Prod.fst =
      (if (files.map Prod.fst).contains p then files.map Prod.fst
       else files.map Prod.fst ++ [p]) := by
  unfold writeEntry
  by_cases hc : (files.map Prod.fst).contains p = true
  · rw [if_pos hc, if_pos hc, List.map_map]
    refine List.map_congr_left ?_
    intro r _
    by_cases hr : r.1 = p
    · simp [hr]
    · simp [hr]
  · have hc2 : (files.map Prod.fst).contains p = false := by
      cases h2 : (files.map Prod.fst).contains p
      · rfl
      · exact absurd h2 hc
    rw [if_neg hc, if_neg hc, List.map_append]
    rfl

theorem mem_keys_writeEntry (files : List (Path × String)) (p : Path) (c : String)
    (q : Path) (h : q ∈ (writeEntry files p c).map Prod.fst) :
    q ∈ files.map Prod.fst ∨ q = p := by
  rw [writeEntry_keys] at h
  by_cases hc : (files.map Prod.fst).contains p = true
  · rw [if_pos hc] at h
    exact Or.inl h
  · rw [if_neg hc] at h
    rcases List.mem_append.1 h with h1 | h1
    · exact Or.inl h1
    · simp at h1
      exact Or.inr h1

theorem writeMany_nil (files : List (Path × String)) : writeMany files [] = files := rfl

theorem writeMany_cons (files : List (Path × String)) (w : Path × String)
    (ws : List (Path × String)) :
    writeMany files (w :: ws) = writeMany (writeEntry files w.1 w.2) ws := rfl

theorem writeMany_append (files ws1 ws2 : List (Path × String)) :
    writeMany files (ws1 ++ ws2) = writeMany (writeMany files ws1) ws2 := by
  unfold writeMany
  rw [List.foldl_append]

theorem mem_keys_writeMany (ws : List (Path × String)) :
    ∀ (files : List (Path × String)) (q : Path),
      q ∈ (writeMany files ws).map Prod.fst →
      q ∈ files.map Prod.fst ∨ ∃ c, (q, c) ∈ ws := by
  induction ws with
  | nil => intro files q h; exact Or.inl h
  | cons w rest ih =>
      intro files q h
      rw [writeMany_cons] at h
      rcases ih (writeEntry files w.1 w.2) q h with h1 | ⟨c, h1⟩
      · rcases mem_keys_writeEntry files w.1 w.2 q h1 with h2 | h2
        · exact Or.inl h2
        · exact Or.inr ⟨w.2, by rw [h2]; exact List.mem_cons_self w rest⟩
      · exact Or.inr ⟨c, List.mem_cons_of_mem w h1⟩

theorem lastWrite_nil (q : Path) : lastWrite [] q = none := rfl

theorem lastWrite_cons (w : Path × String) (ws : List (Path × String)) (q : Path) :
    lastWrite (w :: ws) q =
      (match lastWrite ws q with
       | some c => some c
       | none => if w.1 = q then some w.2 else none) := by
  unfold lastWrite
  rw [List.reverse_cons, List.find?_append]
  cases hf : ws.reverse.find? (fun r => decide (r.1 = q)) with
  | some r => simp [Option.orElse]
  | none =>
      by_cases hw : w.1 = q
      · simp [Option.orElse, List.find?, hw]
      · have hd : decide (w.1 = q) = false := decide_eq_false hw
        simp [Option.orElse, List.find?, hd, hw]

theorem lookupFile_writeMany (ws : List (Path × String)) :
    ∀ (files : List (Path × String)) (q : Path),
      lookupFile (writeMany files ws) q =
        (match lastWrite ws q with
         | some c => some c
         | none => lookupFile files q) := by
  induction ws with
  | nil => intro files q; rfl
  | cons w rest ih =>
      intro files q
      rw [writeMany_cons, ih, lastWrite_cons]
      cases hl : lastWrite rest q with
      | some c => rfl
      | none =>
          rw [lookupFile_writeEntry]
          by_cases hw : w.1 = q
          · rw [if_pos hw, if_pos (hw.symm)]
          · rw [if_neg hw, if_neg (fun h => hw h.symm)]

theorem writeMany_replay (files ws : List (Path × String)) (q : Path) :
    lookupFile (writeMany (writeMany files ws) ws) q =
      lookupFile (writeMany files ws) q := by
  rw [lookupFile_writeMany, lookupFile_writeMany]
  cases lastWrite ws q with
  | some c => rfl
  | none => rfl

theorem dirEntryPaths_cons (e : FileTree) (rest : List FileTree) (path : Path) :
    dirEntryPaths (e :: rest) path =
      dirEntryPathsOfEntry e path ++ dirEntryPaths rest path := rfl

theorem fileEntryPaths_cons (e : FileTree) (rest : List FileTree) (path : Path) :
    fileEntryPaths (e :: rest) path =
      fileEntryPathsOfEntry e path ++ fileEntryPaths rest path := rfl

theorem collectWrites_cons (f : Fetcher) (e : FileTree) (rest : List FileTree)
    (path : Path) :
    collectWrites f (e :: rest) path =
      collectWritesOfEntry f e path ++ collectWrites f rest path := rfl

theorem collectWrites_keys_aux (n : Nat) :
    ∀ (t : List FileTree) (path : Path) (f : Fetcher) (q : Path) (c : String),
      sizeOf t ≤ n → (q, c) ∈ collectWrites f t path → q ∈ fileEntryPaths t path := by
  induction n with
  | zero =>
      intro t path f q c h hm
      cases t with
      | nil => simp [collectWrites] at hm
      | cons e rest =>
          exfalso
          have he := fileTree_sizeOf_pos e
          simp only [List.cons.sizeOf_spec] at h
          omega
  | succ n ih =>
      intro t path f q c h hm
      cases t with
      | nil => simp [collectWrites] at hm
      | cons e rest =>
          have hsz : sizeOf e + sizeOf rest ≤ n := by
            simp only [List.cons.sizeOf_spec] at h
            omega
          have hrest : sizeOf rest ≤ n := by
            have := fileTree_sizeOf_pos e
            omega
          rw [collectWrites_cons] at hm
          rw [fileEntryPaths_cons, List.mem_append]
          rcases List.mem_append.1 hm with h1 | h1
          · left
            cases e with
            | mk nm ty u ch ct mo sy =>
                cases ty with
                | directory =>
                    cases ch with
                    | some cs =>
                        have hcs : sizeOf cs ≤ n := by
                          simp only [FileTree.mk.sizeOf_spec,
                            Option.some.sizeOf_spec] at hsz
                          omega
                        simp only [collectWritesOfEntry] at h1
                        simp only [fileEntryPathsOfEntry]
                        exact ih cs (path ++ [nm]) f q c hcs h1
                    | none => simp [collectWritesOfEntry] at h1
                | file =>
                    have h1b : (q, c) ∈
                        (match f (FileTree.mk nm FType.file u ch ct mo sy) with
                         | Except.ok c2 => [(path ++ [nm], c2)]
                         | Except.error _ => ([] : List (Path × String))) := h1
                    show q ∈ [path ++ [nm]]
                    cases hfe : f (FileTree.mk nm FType.file u ch ct mo sy) with
                    | ok c2 =>
                        rw [hfe] at h1b
                        simp at h1b
                        simp [h1b.1]
                    | error msg =>
                        rw [hfe] at h1b
                        simp at h1b
                | symlink => simp [collectWritesOfEntry, FileTree.type] at h1
                | lambda => simp [collectWritesOfEntry, FileTree.type] at h1
                | middleware => simp [collectWritesOfEntry, FileTree.type] at h1
                | invalid => simp [collectWritesOfEntry, FileTree.type] at h1
          · exact Or.inr (ih rest path f q c hrest h1)

theorem dirEntryPathsOfEntry_dir (nm : String) (u : Option String)
    (ch : Option (List FileTree)) (ct : Option String) (mo : Nat)
    (sy : Option String) (path : Path) :
    dirEntryPathsOfEntry (FileTree.mk nm FType.directory u ch ct mo sy) path =
      (path ++ [nm]) :: (match ch with
        | some cs => dirEntryPaths cs (path ++ [nm])
        | none => []) := by
  cases ch <;> rfl

theorem dirEntryPathsOfEntry_ndir (nm : String) (ty : FType) (u : Option String)
    (ch : Option (List FileTree)) (ct : Option String) (mo : Nat)
    (sy : Option String) (path : Path) (h : ty ≠ FType.directory) :
    dirEntryPathsOfEntry (FileTree.mk nm ty u ch ct mo sy) path = [] := by
  cases ty <;> first
    | exact absurd rfl h
    | rfl

theorem fileEntryPathsOfEntry_dir_some (nm : String) (u : Option String)
    (cs : List FileTree) (ct : Option String) (mo : Nat) (sy : Option String)
    (path : Path) :
    fileEntryPathsOfEntry (FileTree.mk nm FType.directory u (some cs) ct mo sy) path =
      fileEntryPaths cs (path ++ [nm]) := rfl

theorem fileEntryPathsOfEntry_dir_none (nm : String) (u : Option String)
    (ct : Option String) (mo : Nat) (sy : Option String) (path : Path) :
    fileEntryPathsOfEntry (FileTree.mk nm FType.directory u none ct mo sy) path =
      [] := rfl

theorem fileEntryPathsOfEntry_file (nm : String) (u : Option String)
    (ch : Option (List FileTree)) (ct : Option String) (mo : Nat)
    (sy : Option String) (path : Path) :
    fileEntryPathsOfEntry (FileTree.mk nm FType.file u ch ct mo sy) path =
      [path ++ [nm]] := by
  cases ch <;> rfl

theorem fileEntryPathsOfEntry_other (nm : String) (ty : FType) (u : Option String)
    (ch : Option (List FileTree)) (ct : Option String) (mo : Nat)
    (sy : Option String) (path : Path) (h1 : ty ≠ FType.directory)
    (h2 : ty ≠ FType.file) :
    fileEntryPathsOfEntry (FileTree.mk nm ty u ch ct mo sy) path = [] := by
  cases ty <;> first
    | exact absurd rfl h1
    | exact absurd rfl h2
    | rfl

theorem collectWritesOfEntry_dir_some (f : Fetcher) (nm : String) (u : Option String)
    (cs : List FileTree) (ct : Option String) (mo : Nat) (sy : Option String)
    (path : Path) :
    collectWritesOfEntry f (FileTree.mk nm FType.directory u (some cs) ct mo sy) path =
      collectWrites f cs (path ++ [nm]) := rfl

theorem collectWritesOfEntry_dir_none (f : Fetcher) (nm : String) (u : Option String)
    (ct : Option String) (mo : Nat) (sy : Option String) (path : Path) :
    collectWritesOfEntry f (FileTree.mk nm FType.directory u none ct mo sy) path =
      [] := rfl

theorem collectWritesOfEntry_file (f : Fetcher) (nm : String) (u : Option String)
    (ch : Option (List FileTree)) (ct : Option String) (mo : Nat)
    (sy : Option String) (path : Path) :
    collectWritesOfEntry f (FileTree.mk nm FType.file u ch ct mo sy) path =
      (match f (FileTree.mk nm FType.file u ch ct mo sy) with
       | Except.ok c => [(path ++ [nm], c)]
       | Except.error _ => []) := by
  cases ch <;> rfl

theorem collectWritesOfEntry_other (f : Fetcher) (nm : String) (ty : FType)
    (u : Option String) (ch : Option (List FileTree)) (ct : Option String)
    (mo : Nat) (sy : Option String) (path : Path) (h1 : ty ≠ FType.directory)
    (h2 : ty ≠ FType.file) :
    collectWritesOfEntry f (FileTree.mk nm ty u ch ct mo sy) path = [] := by
  cases ty <;> first
    | exact absurd rfl h1
    | exact absurd rfl h2
    | rfl

theorem collectWritesOfEntry_keys (f : Fetcher) (e : FileTree) (path : Path)
    (q : Path) (c : String) (h : (q, c) ∈ collectWritesOfEntry f e path) :
    q ∈ fileEntryPathsOfEntry e path := by
  have h2 : (q, c) ∈ collectWrites f [e] path := by
    rw [collectWrites_cons]
    exact List.mem_append_left _ h
  have h3 := collectWrites_keys_aux (sizeOf ([e] : List FileTree)) [e] path f q c
    le_rfl h2
  rw [fileEntryPaths_cons] at h3
  rcases List.mem_append.1 h3 with h4 | h4
  · exact h4
  · simp [fileEntryPaths] at h4

theorem downloadFile_not_dir (e : FileTree) (path : Path) (f : Fetcher)
    (w : Writer) (fs : FS) (h : fs.isDirAt (path ++ [e.name]) = false) :
    downloadFile e path f w fs =
      (match f e with
       | Except.ok c =>
           (w (path ++ [e.name]) c fs).map
             (fun fs1 => (fs1, [LogEvent.progress (path ++ [e.name])]))
       | Except.error msg =>
           Except.ok (fs, [LogEvent.progress (path ++ [e.name]),
                           LogEvent.failure e.name msg])) := by
  simp only [downloadFile, h, Bool.and_false]
  rfl

/-- Characterization of a traversal over a disk whose writes all succeed,
under collision freedom: the traversal never aborts, the directories after
the run are exactly the starting directories together with the composed
directory-entry paths, ancestor-closure is preserved, and the files after
the run are the starting files with exactly the fetched contents of the
file-typed entries written over them, in traversal order. -/
theorem parse_char (n : Nat) :
    ∀ (t : List FileTree) (path : Path) (f : Fetcher) (fs : FS),
      sizeOf t ≤ n →
      ancClosed fs →
      path ∈ fs.dirs →
      (∀ q ∈ dirEntryPaths t path, q ∉ fs.filePaths ∧ q ∉ fileEntryPaths t path) →
      (∀ q ∈ fileEntryPaths t path, q ∉ fs.dirs ∧ q ∉ dirEntryPaths t path) →
      ∃ fs1 logs, parseFileTree t path f diskWrite fs = Except.ok (fs1, logs) ∧
        (∀ q : Path, q ∈ fs1.dirs ↔ (q ∈ fs.dirs ∨ q ∈ dirEntryPaths t path)) ∧
        ancClosed fs1 ∧
        fs1.files = writeMany fs.files (collectWrites f t path) := by
  induction n with
  | zero =>
      intro t path f fs hsz
      cases t with
      | nil =>
          intro hanc hpath hdirs hfiles
          exact ⟨fs, [], rfl, fun q => by simp [dirEntryPaths], hanc, rfl⟩
      | cons e rest =>
          exfalso
          have he := fileTree_sizeOf_pos e
          simp only [List.cons.sizeOf_spec] at hsz
          omega
  | succ n ih =>
      intro t path f fs hsz
      cases t with
      | nil =>
          intro hanc hpath hdirs hfiles
          exact ⟨fs, [], rfl, fun q => by simp [dirEntryPaths], hanc, rfl⟩
      | cons e rest =>
          intro hanc hpath hdirs hfiles
          have hszer : sizeOf e + sizeOf rest ≤ n := by
            simp only [List.cons.sizeOf_spec] at hsz
            omega
          have hrest_sz : sizeOf rest ≤ n := by
            have := fileTree_sizeOf_pos e
            omega
          cases e with
          | mk nm ty u ch ct mo sy =>
          -- Entry step: process the head entry.
          have hstep : ∃ fsE logsE,
              parseFileTreeEntry (FileTree.mk nm ty u ch ct mo sy) path f diskWrite fs =
                Except.ok (fsE, logsE) ∧
              (∀ q : Path, q ∈ fsE.dirs ↔
                (q ∈ fs.dirs ∨
                 q ∈ dirEntryPathsOfEntry (FileTree.mk nm ty u ch ct mo sy) path)) ∧
              ancClosed fsE ∧
              fsE.files = writeMany fs.files
                (collectWritesOfEntry f (FileTree.mk nm ty u ch ct mo sy) path) := by
            cases ty with
            | directory =>
                have hdp_mem : (path ++ [nm]) ∈
                    dirEntryPaths (FileTree.mk nm FType.directory u ch ct mo sy :: rest) path := by
                  rw [dirEntryPaths_cons]
                  apply List.mem_append_left
                  rw [dirEntryPathsOfEntry_dir]
                  exact List.mem_cons_self _ _
                have hdpf : (path ++ [nm]) ∉ fs.filePaths := (hdirs _ hdp_mem).1
                have hdpfe : (path ++ [nm]) ∉
                    fileEntryPaths (FileTree.mk nm FType.directory u ch ct mo sy :: rest) path :=
                  (hdirs _ hdp_mem).2
                have hex : fs.existsAt (path ++ [nm]) = fs.dirs.contains (path ++ [nm]) := by
                  unfold FS.existsAt
                  cases hfp : fs.filePaths.contains (path ++ [nm]) with
                  | false => rw [Bool.or_false]
                  | true => exact absurd ((pcontains_iff _ _).1 hfp) hdpf
                obtain ⟨fs0, hif, hfs0dirs, hfs0anc, hfs0files⟩ :
                    ∃ fs0 : FS,
                      (if ! fs.existsAt (path ++ [nm])
                       then fs.mkdirRecursive (path ++ [nm]) else fs) = fs0 ∧
                      (∀ q : Path, q ∈ fs0.dirs ↔ (q ∈ fs.dirs ∨ q = path ++ [nm])) ∧
                      ancClosed fs0 ∧ fs0.files = fs.files := by
                  by_cases hdin : (path ++ [nm]) ∈ fs.dirs
                  · refine ⟨fs, ?_, ?_, hanc, rfl⟩
                    · rw [hex, (pcontains_iff _ _).2 hdin]
                      rfl
                    · intro q
                      constructor
                      · exact Or.inl
                      · rintro (hq | rfl)
                        · exact hq
                        · exact hdin
                  · refine ⟨fs.mkdirRecursive (path ++ [nm]), ?_, ?_,
                      ancClosed_mkdirRecursive fs _ hanc, rfl⟩
                    · have hcf : fs.dirs.contains (path ++ [nm]) = false := by
                        cases hc : fs.dirs.contains (path ++ [nm]) with
                        | false => rfl
                        | true => exact absurd ((pcontains_iff _ _).1 hc) hdin
                      rw [hex, hcf]
                      rfl
                    · intro q
                      rw [mem_dirs_mkdirRecursive, initSegs_append_one, List.mem_append]
                      constructor
                      · rintro (hq | hq | hq)
                        · exact Or.inl hq
                        · exact Or.inl (hanc path hpath q hq)
                        · simp at hq
                          exact Or.inr hq
                      · rintro (hq | rfl)
                        · exact Or.inl hq
                        · right
                          right
                          simp
                have hdp0 : (path ++ [nm]) ∈ fs0.dirs := (hfs0dirs _).2 (Or.inr rfl)
                cases ch with
                | some cs =>
                    have hcs_sz : sizeOf cs ≤ n := by
                      simp only [FileTree.mk.sizeOf_spec, Option.some.sizeOf_spec] at hszer
                      omega
                    have hd' : ∀ q ∈ dirEntryPaths cs (path ++ [nm]),
                        q ∉ fs0.filePaths ∧ q ∉ fileEntryPaths cs (path ++ [nm]) := by
                      intro q hq
                      have hq_whole : q ∈ dirEntryPaths
                          (FileTree.mk nm FType.directory u (some cs) ct mo sy :: rest) path := by
                        rw [dirEntryPaths_cons]
                        apply List.mem_append_left
                        rw [dirEntryPathsOfEntry_dir]
                        exact List.mem_cons_of_mem _ hq
                      have h1 := hdirs q hq_whole
                      constructor
                      · unfold FS.filePaths
                        rw [hfs0files]
                        exact h1.1
                      · intro hq2
                        apply h1.2
                        rw [fileEntryPaths_cons]
                        apply List.mem_append_left
                        rw [fileEntryPathsOfEntry_dir_some]
                        exact hq2
                    have hf' : ∀ q ∈ fileEntryPaths cs (path ++ [nm]),
                        q ∉ fs0.dirs ∧ q ∉ dirEntryPaths cs (path ++ [nm]) := by
                      intro q hq
                      have hq_whole : q ∈ fileEntryPaths
                          (FileTree.mk nm FType.directory u (some cs) ct mo sy :: rest) path := by
                        rw [fileEntryPaths_cons]
                        apply List.mem_append_left
                        rw [fileEntryPathsOfEntry_dir_some]
                        exact hq
                      have h1 := hfiles q hq_whole
                      constructor
                      · intro hq2
                        rcases (hfs0dirs q).1 hq2 with h3 | h3
                        · exact h1.1 h3
                        · subst h3
                          exact h1.2 hdp_mem
                      · intro hq2
                        apply h1.2
                        rw [dirEntryPaths_cons]
                        apply List.mem_append_left
                        rw [dirEntryPathsOfEntry_dir]
                        exact List.mem_cons_of_mem _ hq2
                    obtain ⟨fsE, logsE, hEeq, hEdirs, hEanc, hEfiles⟩ :=
                      ih cs (path ++ [nm]) f fs0 hcs_sz hfs0anc hdp0 hd' hf'
                    refine ⟨fsE, logsE, ?_, ?_, hEanc, ?_⟩
                    · rw [parseFileTreeEntry_dir]
                      rw [hif]
                      exact hEeq
                    · intro q
                      rw [hEdirs q, hfs0dirs q, dirEntryPathsOfEntry_dir]
                      simp only [List.mem_cons]
                      tauto
                    · rw [hEfiles, hfs0files, collectWritesOfEntry_dir_some]
                | none =>
                    refine ⟨fs0, [], ?_, ?_, hfs0anc, ?_⟩
                    · rw [parseFileTreeEntry_dir]
                      rw [hif]
                    · intro q
                      rw [hfs0dirs q, dirEntryPathsOfEntry_dir]
                      simp only [List.mem_cons, List.not_mem_nil]
                      tauto
                    · rw [hfs0files, collectWritesOfEntry_dir_none, writeMany_nil]
            | file =>
                have hfp_mem : (path ++ [nm]) ∈
                    fileEntryPaths (FileTree.mk nm FType.file u ch ct mo sy :: rest) path := by
                  rw [fileEntryPaths_cons]
                  apply List.mem_append_left
                  rw [fileEntryPathsOfEntry_file]
                  exact List.mem_singleton_self _
                have hnd : (path ++ [nm]) ∉ fs.dirs := (hfiles _ hfp_mem).1
                have hdirAt : fs.isDirAt (path ++ [nm]) = false := by
                  unfold FS.isDirAt
                  cases hc : fs.dirs.contains (path ++ [nm]) with
                  | false => rfl
                  | true => exact absurd ((pcontains_iff _ _).1 hc) hnd
                have hentry : parseFileTreeEntry (FileTree.mk nm FType.file u ch ct mo sy)
                    path f diskWrite fs =
                    downloadFile (FileTree.mk nm FType.file u ch ct mo sy) path f diskWrite fs := by
                  rw [parseFileTreeEntry_ndir _ _ _ _ _ _ _ _ _ _ _ (by intro h; cases h)]
                  rw [if_pos rfl]
                have hdl := downloadFile_not_dir (FileTree.mk nm FType.file u ch ct mo sy)
                  path f diskWrite fs hdirAt
                cases hfe : f (FileTree.mk nm FType.file u ch ct mo sy) with
                | ok c =>
                    refine ⟨fs.writeFile (path ++ [nm]) c,
                      [LogEvent.progress (path ++ [nm])], ?_, ?_, ?_, ?_⟩
                    · rw [hentry, hdl, hfe]
                      rfl
                    · intro q
                      rw [dirEntryPathsOfEntry_ndir _ _ _ _ _ _ _ _ (by intro h; cases h)]
                      simp only [List.not_mem_nil, or_false]
                      rfl
                    · exact ancClosed_writeFile fs _ c hanc
                    · rw [collectWritesOfEntry_file, hfe]
                      rfl
                | error msg =>
                    refine ⟨fs, [LogEvent.progress (path ++ [nm]),
                      LogEvent.failure nm msg], ?_, ?_, hanc, ?_⟩
                    · rw [hentry, hdl, hfe]
                      rfl
                    · intro q
                      rw [dirEntryPathsOfEntry_ndir _ _ _ _ _ _ _ _ (by intro h; cases h)]
                      simp only [List.not_mem_nil, or_false]
                    · rw [collectWritesOfEntry_file, hfe, writeMany_nil]
            | symlink =>
                refine ⟨fs, [], ?_, ?_, hanc, ?_⟩
                · rw [parseFileTreeEntry_ndir _ _ _ _ _ _ _ _ _ _ _ (by intro h; cases h)]
                  rw [if_neg (by intro h; cases h)]
                · intro q
                  rw [dirEntryPathsOfEntry_ndir _ _ _ _ _ _ _ _ (by intro h; cases h)]
                  simp only [List.not_mem_nil, or_false]
                · rw [collectWritesOfEntry_other _ _ _ _ _ _ _ _ _
                    (by intro h; cases h) (by intro h; cases h), writeMany_nil]
            | lambda =>
                refine ⟨fs, [], ?_, ?_, hanc, ?_⟩
                · rw [parseFileTreeEntry_ndir _ _ _ _ _ _ _ _ _ _ _ (by intro h; cases h)]
                  rw [if_neg (by intro h; cases h)]
                · intro q
                  rw [dirEntryPathsOfEntry_ndir _ _ _ _ _ _ _ _ (by intro h; cases h)]
                  simp only [List.not_mem_nil, or_false]
                · rw [collectWritesOfEntry_other _ _ _ _ _ _ _ _ _
                    (by intro h; cases h) (by intro h; cases h), writeMany_nil]
            | middleware =>
                refine ⟨fs, [], ?_, ?_, hanc, ?_⟩
                · rw [parseFileTreeEntry_ndir _ _ _ _ _ _ _ _ _ _ _ (by intro h; cases h)]
                  rw [if_neg (by intro h; cases h)]
                · intro q
                  rw [dirEntryPathsOfEntry_ndir _ _ _ _ _ _ _ _ (by intro h; cases h)]
                  simp only [List.not_mem_nil, or_false]
                · rw [collectWritesOfEntry_other _ _ _ _ _ _ _ _ _
                    (by intro h; cases h) (by intro h; cases h), writeMany_nil]
            | invalid =>
                refine ⟨fs, [], ?_, ?_, hanc, ?_⟩
                · rw [parseFileTreeEntry_ndir _ _ _ _ _ _ _ _ _ _ _ (by intro h; cases h)]
                  rw [if_neg (by intro h; cases h)]
                · intro q
                  rw [dirEntryPathsOfEntry_ndir _ _ _ _ _ _ _ _ (by intro h; cases h)]
                  simp only [List.not_mem_nil, or_false]
                · rw [collectWritesOfEntry_other _ _ _ _ _ _ _ _ _
                    (by intro h; cases h) (by intro h; cases h), writeMany_nil]
          obtain ⟨fsE, logsE, hE, hEdirs, hEanc, hEfiles⟩ := hstep
          -- Rest step.
          have hpathE : path ∈ fsE.dirs := (hEdirs path).2 (Or.inl hpath)
          have hdR : ∀ q ∈ dirEntryPaths rest path,
              q ∉ fsE.filePaths ∧ q ∉ fileEntryPaths rest path := by
            intro q hq
            have hq_whole : q ∈ dirEntryPaths
                (FileTree.mk nm ty u ch ct mo sy :: rest) path := by
              rw [dirEntryPaths_cons]
              exact List.mem_append_right _ hq
            have h1 := hdirs q hq_whole
            constructor
            · intro hq2
              unfold FS.filePaths at hq2
              rw [hEfiles] at hq2
              rcases mem_keys_writeMany _ _ _ hq2 with h3 | ⟨c, h3⟩
              · exact h1.1 h3
              · have h4 := collectWritesOfEntry_keys f _ path q c h3
                apply h1.2
                rw [fileEntryPaths_cons]
                exact List.mem_append_left _ h4
            · intro hq2
              apply h1.2
              rw [fileEntryPaths_cons]
              exact List.mem_append_right _ hq2
          have hfR : ∀ q ∈ fileEntryPaths rest path,
              q ∉ fsE.dirs ∧ q ∉ dirEntryPaths rest path := by
            intro q hq
            have hq_whole : q ∈ fileEntryPaths
                (FileTree.mk nm ty u ch ct mo sy :: rest) path := by
              rw [fileEntryPaths_cons]
              exact List.mem_append_right _ hq
            have h1 := hfiles q hq_whole
            constructor
            · intro hq2
              rcases (hEdirs q).1 hq2 with h3 | h3
              · exact h1.1 h3
              · apply h1.2
                rw [dirEntryPaths_cons]
                exact List.mem_append_left _ h3
            · intro hq2
              apply h1.2
              rw [dirEntryPaths_cons]
              exact List.mem_append_right _ hq2
          obtain ⟨fs2, logs2, h2, h2dirs, h2anc, h2files⟩ :=
            ih rest path f fsE hrest_sz hEanc hpathE hdR hfR
          refine ⟨fs2, logsE ++ logs2, ?_, ?_, h2anc, ?_⟩
          · rw [parseFileTree_cons_ok _ _ _ _ _ _ _ _ hE, h2]
          · intro q
            rw [h2dirs q, hEdirs q, dirEntryPaths_cons, List.mem_append]
            tauto
          · rw [h2files, hEfiles, ← writeMany_append, ← collectWrites_cons]

/-- C1 counterexample: in the tree with a file entry a followed by a
directory entry a, processed at out on a fresh disk, the directory-typed
entry's path out/a is a composed directory path but is never created as a
directory — the file written first occupies the path and the existsSync
check then skips mkdir — so the set of directories on disk does not match
the set of directory-typed entries' paths. -/
theorem dirs_exact_counterexample :
    (["out", "a"] ∈ dirEntryPaths collidingTree ["out"]) ∧
    parseFileTree collidingTree ["out"] fetchU diskWrite fsOut =
      Except.ok (FS.mk [["out"]] [(["out", "a"], "one")],
        [LogEvent.progress ["out", "a"]]) ∧
    (["out", "a"] ∉ (FS.mk [["out"]] [(["out", "a"], "one")]).dirs) := by
  refine ⟨?_, rfl, ?_⟩ <;> decide

/-- C1 (amended): for every file tree, starting directory and fetcher,
provided the starting directory exists on an ancestor-closed disk, every
disk write succeeds, and the tree's composed paths are collision-free (no
directory-entry path coincides with an existing file or a file-entry path,
and no file-entry path coincides with an existing directory or a
directory-entry path), the set of directories on disk after the traversal is
exactly the starting directories together with the composed paths of the
directory-typed entries — regardless of whether individual fetches succeed
or fail. -/
theorem parseFileTree_dirs_exact (t : List FileTree) (path : Path) (f : Fetcher)
    (fs fs1 : FS) (logs : List LogEvent)
    (hanc : ancClosed fs) (hpath : path ∈ fs.dirs)
    (hdirs : ∀ q ∈ dirEntryPaths t path, q ∉ fs.filePaths ∧ q ∉ fileEntryPaths t path)
    (hfiles : ∀ q ∈ fileEntryPaths t path, q ∉ fs.dirs ∧ q ∉ dirEntryPaths t path)
    (h : parseFileTree t path f diskWrite fs = Except.ok (fs1, logs)) :
    ∀ q : Path, q ∈ fs1.dirs ↔ (q ∈ fs.dirs ∨ q ∈ dirEntryPaths t path) := by
  obtain ⟨fs1a, logs1a, heq, hd, _, _⟩ :=
    parse_char (sizeOf t) t path f fs le_rfl hanc hpath hdirs hfiles
  rw [h] at heq
  injection heq with hp
  have hfs : fs1 = fs1a := congrArg Prod.fst hp
  rw [← hfs] at hd
  exact hd

/-- Witness for C1's amended statement: a directory with one file child
whose fetch fails; the directory path is still created and nothing else. -/
theorem parseFileTree_dirs_exact_witness :
    (ancClosed fsOut ∧ ["out"] ∈ fsOut.dirs ∧
     (∀ q ∈ dirEntryPaths witnessTree ["out"],
        q ∉ fsOut.filePaths ∧ q ∉ fileEntryPaths witnessTree ["out"]) ∧
     (∀ q ∈ fileEntryPaths witnessTree ["out"],
        q ∉ fsOut.dirs ∧ q ∉ dirEntryPaths witnessTree ["out"]) ∧
     parseFileTree witnessTree ["out"] fetchU2Fails diskWrite fsOut =
       Except.ok (FS.mk [["out"], ["out", "d"]] [],
         [LogEvent.progress ["out", "d", "x"], LogEvent.failure "x" "boom"])) ∧
    (∀ q : Path, q ∈ (FS.mk [["out"], ["out", "d"]] []).dirs ↔
      (q ∈ fsOut.dirs ∨ q ∈ dirEntryPaths witnessTree ["out"])) :=
  ⟨⟨by decide, by decide, by decide, by decide, rfl⟩,
   parseFileTree_dirs_exact witnessTree ["out"] fetchU2Fails fsOut
     (FS.mk [["out"], ["out", "d"]] [])
     [LogEvent.progress ["out", "d", "x"], LogEvent.failure "x" "boom"]
     (by decide) (by decide) (by decide) (by decide) rfl⟩

/-- C2 counterexample: in a tree of three file entries where the disk write
of the second file rejects, the rejection is not caught by the per-file
step (the write promise is returned out of the try block), the whole
traversal aborts with the write's error, and no result state in which the
other two files were written exists — the claim's assertion that a failing
write is caught and the run does not abort is false at this input. -/
theorem write_failure_aborts_counterexample :
    parseFileTree threeFiles ["out"] fetchU writeF2Fails fsOut =
      Except.error "disk full" ∧
    (parseFileTree threeFiles ["out"] fetchU writeF2Fails fsOut).isOk = false :=
  ⟨rfl, rfl⟩

/-- C2 (amended): a failure of the content fetch of a file-typed entry is
caught inside the per-file step, logged with the entry's name after the
progress line, leaves the disk unchanged, and the traversal continues over
the remaining entries exactly as it would from the same disk; a disk-write
rejection, by contrast, is not caught by the per-file step and aborts the
traversal (see the counterexample). -/
theorem fetch_failure_is_isolated (e : FileTree) (rest : List FileTree)
    (path : Path) (f : Fetcher) (w : Writer) (fs : FS) (msg : String)
    (hty : e.type = FType.file)
    (hdir : fs.isDirAt (path ++ [e.name]) = false)
    (hfail : f e = Except.error msg) :
    parseFileTree (e :: rest) path f w fs =
      (parseFileTree rest path f w fs).map
        (fun r => (r.1, LogEvent.progress (path ++ [e.name]) ::
                        LogEvent.failure e.name msg :: r.2)) := by
  have hentry : parseFileTreeEntry e path f w fs =
      Except.ok (fs, [LogEvent.progress (path ++ [e.name]),
                      LogEvent.failure e.name msg]) := by
    cases e with
    | mk nm ty u ch ct mo sy =>
        have hty2 : ty = FType.file := hty
        subst hty2
        rw [parseFileTreeEntry_ndir _ _ _ _ _ _ _ _ _ _ _ (by intro h; cases h)]
        rw [if_pos rfl]
        rw [downloadFile_not_dir _ _ _ _ _ hdir]
        rw [hfail]
  rw [parseFileTree_cons_ok _ _ _ _ _ _ _ _ hentry]
  cases hrest : parseFileTree rest path f w fs with
  | error e2 => rfl
  | ok r => rfl

/-- Witness for C2's amended statement: the second of three files has a
failing fetch; the head-level instance shows the failure is logged and the
traversal continues, and the full three-file run still writes the other two
files. -/
theorem fetch_failure_is_isolated_witness :
    ((mkFileEntry "f2" "u2").type = FType.file ∧
     fsOut.isDirAt (["out"] ++ [(mkFileEntry "f2" "u2").name]) = false ∧
     fetchU2Fails (mkFileEntry "f2" "u2") = Except.error "boom" ∧
     parseFileTree (mkFileEntry "f2" "u2" :: [mkFileEntry "f3" "u3"]) ["out"]
         fetchU2Fails diskWrite fsOut =
       (parseFileTree [mkFileEntry "f3" "u3"] ["out"] fetchU2Fails diskWrite fsOut).map
         (fun r => (r.1,
            LogEvent.progress (["out"] ++ [(mkFileEntry "f2" "u2").name]) ::
            LogEvent.failure (mkFileEntry "f2" "u2").name "boom" :: r.2))) ∧
    parseFileTree threeFiles ["out"] fetchU2Fails diskWrite fsOut =
      Except.ok (FS.mk [["out"]] [(["out", "f1"], "one"), (["out", "f3"], "three")],
        [LogEvent.progress ["out", "f1"], LogEvent.progress ["out", "f2"],
         LogEvent.failure "f2" "boom", LogEvent.progress ["out", "f3"]]) :=
  ⟨⟨rfl, rfl, rfl,
    fetch_failure_is_isolated (mkFileEntry "f2" "u2") [mkFileEntry "f3" "u3"]
      ["out"] fetchU2Fails diskWrite fsOut "boom" rfl rfl rfl⟩,
   rfl⟩

/-- C5: running the materializer twice over the same tree, the same fetched
contents (the fetcher is a fixed function) and the same starting directory
on a disk whose writes succeed, under the same well-formedness and
collision-freedom conditions as the directory characterization, is a fixed
point: the second run recreates no directory and rewrites each file with
identical content, so the disk state after the second run equals the disk
state after the first (same directories, same file contents everywhere). -/
theorem materializer_idempotent (t : List FileTree) (path : Path) (f : Fetcher)
    (fs fs1 fs2 : FS) (l1 l2 : List LogEvent)
    (hanc : ancClosed fs) (hpath : path ∈ fs.dirs)
    (hdirs : ∀ q ∈ dirEntryPaths t path, q ∉ fs.filePaths ∧ q ∉ fileEntryPaths t path)
    (hfiles : ∀ q ∈ fileEntryPaths t path, q ∉ fs.dirs ∧ q ∉ dirEntryPaths t path)
    (h1 : parseFileTree t path f diskWrite fs = Except.ok (fs1, l1))
    (h2 : parseFileTree t path f diskWrite fs1 = Except.ok (fs2, l2)) :
    FS.StateEq fs2 fs1 := by
  obtain ⟨fs1a, logs1a, heq1, hd1, hanc1, hf1⟩ :=
    parse_char (sizeOf t) t path f fs le_rfl hanc hpath hdirs hfiles
  rw [h1] at heq1
  injection heq1 with hp1
  have hfs1 : fs1 = fs1a := congrArg Prod.fst hp1
  rw [← hfs1] at hd1 hanc1 hf1
  have hpath1 : path ∈ fs1.dirs := (hd1 path).2 (Or.inl hpath)
  have hdirs1 : ∀ q ∈ dirEntryPaths t path,
      q ∉ fs1.filePaths ∧ q ∉ fileEntryPaths t path := by
    intro q hq
    have h0 := hdirs q hq
    refine ⟨?_, h0.2⟩
    intro hq2
    unfold FS.filePaths at hq2
    rw [hf1] at hq2
    rcases mem_keys_writeMany _ _ _ hq2 with h3 | ⟨c, h3⟩
    · exact h0.1 h3
    · have h4 := collectWrites_keys_aux (sizeOf t) t path f q c le_rfl h3
      exact h0.2 h4
  have hfiles1 : ∀ q ∈ fileEntryPaths t path,
      q ∉ fs1.dirs ∧ q ∉ dirEntryPaths t path := by
    intro q hq
    have h0 := hfiles q hq
    refine ⟨?_, h0.2⟩
    intro hq2
    rcases (hd1 q).1 hq2 with h3 | h3
    · exact h0.1 h3
    · exact h0.2 h3
  obtain ⟨fs2a, logs2a, heq2, hd2, hanc2, hf2⟩ :=
    parse_char (sizeOf t) t path f fs1 le_rfl hanc1 hpath1 hdirs1 hfiles1
  rw [h2] at heq2
  injection heq2 with hp2
  have hfs2 : fs2 = fs2a := congrArg Prod.fst hp2
  rw [← hfs2] at hd2 hf2
  constructor
  · intro p
    rw [hd2 p]
    constructor
    · rintro (hp | hp)
      · exact hp
      · exact (hd1 p).2 (Or.inr hp)
    · exact Or.inl
  · intro p
    rw [hf2, hf1]
    exact writeMany_replay fs.files _ p

/-- Witness for C5: the nested fixture tree materialized twice from the
fresh output directory; the second run returns the state of the first
unchanged. -/
theorem materializer_idempotent_witness :
    (ancClosed fsOut ∧ ["out"] ∈ fsOut.dirs ∧
     (∀ q ∈ dirEntryPaths nestedTree ["out"],
        q ∉ fsOut.filePaths ∧ q ∉ fileEntryPaths nestedTree ["out"]) ∧
     (∀ q ∈ fileEntryPaths nestedTree ["out"],
        q ∉ fsOut.dirs ∧ q ∉ dirEntryPaths nestedTree ["out"]) ∧
     parseFileTree nestedTree ["out"] fetchU diskWrite fsOut =
       Except.ok (run1FS, run1Logs) ∧
     parseFileTree nestedTree ["out"] fetchU diskWrite run1FS =
       Except.ok (run1FS, run1Logs)) ∧
    FS.StateEq run1FS run1FS :=
  ⟨⟨by decide, by decide, by decide, by decide, rfl, rfl⟩,
   materializer_idempotent nestedTree ["out"] fetchU fsOut run1FS run1FS
     run1Logs run1Logs (by decide) (by decide) (by decide) (by decide) rfl rfl⟩

end VercelDl
